import Mathlib

/-!
Verification of the Tic-Tac-Toe game-and-opponent engine
(`src/components/TicTacToe.js`): board model, win detection, move
application, score keeping, the strategic heuristic and the minimax
search with alpha-beta pruning used by the computer opponent.

Modelling conventions:
* a cell value `''` / `'X'` / `'O'` is `Option Player` (`none` = empty);
* a board is a `List Cell`; reading `board[i]` is `List.get?`, so that an
  out-of-range read (JS `undefined`) is `none : Option Cell` and is
  distinct from an in-range empty cell `some none`;
* JS numbers used by the search are integers together with `±Infinity`,
  modelled by `WithBot (WithTop ℤ)` (`⊥` = `-Infinity`, `⊤` = `+Infinity`);
* each call of `Math.random()` is modelled by a rational draw `r` with
  `0 ≤ r < 1`, passed explicitly (one parameter per draw site).
-/

/-- A player symbol, `'X'` or `'O'`. -/
inductive Player : Type
  | X : Player
  | O : Player
deriving DecidableEq, Repr

/-- The opposite player, as in `player === 'X' ? 'O' : 'X'`. -/
def Player.other : Player → Player
  | Player.X => Player.O
  | Player.O => Player.X

/-- A board cell: `none` models the empty string `''`. -/
abbrev Cell : Type := Option Player

/-- The board array `boardState` (length 9 in every real game state). -/
abbrev Board : Type := List Cell

/-- Reading `boardState[i]`: `none` models the out-of-range value
`undefined`, `some c` an actual cell. -/
def cellAt (b : Board) (i : ℕ) : Option Cell :=
  b.get? i

/-- The 8 fixed win combinations `winCombos`: 3 rows, then 3 columns,
then 2 diagonals. -/
def winCombos : List (ℕ × ℕ × ℕ) :=
  [(0, 1, 2), (3, 4, 5), (6, 7, 8),
   (0, 3, 6), (1, 4, 7), (2, 5, 8),
   (0, 4, 8), (2, 4, 6)]

/-- `boardState[a] === player && boardState[b] === player && boardState[c] === player`
for a combination `(a, b, c)`. -/
def comboWin (b : Board) (p : Player) (t : ℕ × ℕ × ℕ) : Bool :=
  decide (cellAt b t.1 = some (some p) ∧ cellAt b t.2.1 = some (some p) ∧
    cellAt b t.2.2 = some (some p))

/-- `checkWinner(boardState, player)`: the first combination of
`winCombos` whose three cells all equal `player`, or `null`. -/
def checkWinner (b : Board) (p : Player) : Option (ℕ × ℕ × ℕ) :=
  winCombos.find? (comboWin b p)

/-- `getEmptyCells(boardState)`: the indices of empty cells, in ascending
order (the JS `map`/`filter` over positions). -/
def getEmptyCells (b : Board) : List ℕ :=
  (List.range b.length).filter (fun i => cellAt b i = some none)

section FindFirst

variable {α : Type _}

/-- A `find?` result is the first element of the list satisfying the
predicate: it satisfies it, it occurs at some position, and every earlier
position fails the predicate. -/
theorem find?_first {p : α → Bool} :
    ∀ {l : List α} {a : α}, l.find? p = some a →
      p a = true ∧ ∃ n : ℕ, ∃ hn : n < l.length,
        l.get ⟨n, hn⟩ = a ∧ ∀ m (hm : m < n), p (l.get ⟨m, Nat.lt_trans hm hn⟩) = false := by
  intro l
  induction l with
  | nil => intro a h; simp [List.find?] at h
  | cons x xs ih =>
    intro a h
    rw [List.find?] at h
    by_cases hx : p x = true
    · rw [hx] at h
      simp only [Option.some.injEq] at h
      subst h
      refine ⟨hx, 0, by simp, rfl, ?_⟩
      intro m hm
      exact absurd hm (Nat.not_lt_zero m)
    · rw [Bool.of_not_eq_true hx] at h
      simp only [] at h
      obtain ⟨hpa, n, hn, hget, hbefore⟩ := ih h
      refine ⟨hpa, n + 1, Nat.succ_lt_succ hn, hget, ?_⟩
      intro m hm
      match m with
      | 0 => simpa using Bool.of_not_eq_true hx
      | Nat.succ m' => exact hbefore m' (Nat.lt_of_succ_lt_succ hm)

/-- `find?` finds something as soon as some element satisfies the
predicate. -/
theorem find?_isSome_of_exists {p : α → Bool} {l : List α} {a : α}
    (ha : a ∈ l) (hpa : p a = true) : (l.find? p).isSome := by
  induction l with
  | nil => cases ha
  | cons x xs ih =>
    rw [List.find?]
    by_cases hx : p x = true
    · rw [hx]; rfl
    · rw [Bool.of_not_eq_true hx]
      rcases List.mem_cons.mp ha with h | h
      · subst h; exact absurd hpa hx
      · exact ih h

end FindFirst

/-- **C1**: for every board and player, `checkWinner` returns a
combination exactly when some combination of the 8 fixed triples has all
three cells equal to the player; the returned combination satisfies the
all-three-cells condition and is the first such triple in the fixed
enumeration order (rows, then columns, then diagonals). -/
theorem checkWinner_first_win (b : Board) (p : Player) :
    ((checkWinner b p).isSome ↔ ∃ t ∈ winCombos, comboWin b p t = true) ∧
    ∀ t, checkWinner b p = some t →
      comboWin b p t = true ∧
      ∃ n : ℕ, ∃ hn : n < winCombos.length,
        winCombos.get ⟨n, hn⟩ = t ∧
        ∀ m (hm : m < n),
          comboWin b p (winCombos.get ⟨m, Nat.lt_trans hm hn⟩) = false := by
  constructor
  · constructor
    · intro h
      obtain ⟨t, ht⟩ := Option.isSome_iff_exists.mp h
      exact ⟨t, List.mem_of_find?_eq_some ht, List.find?_some ht⟩
    · rintro ⟨t, htmem, htwin⟩
      exact find?_isSome_of_exists htmem htwin
  · intro t ht
    exact ⟨List.find?_some ht, (find?_first ht).2⟩

/-- Witness for `checkWinner_first_win` at a concrete winning board. -/
theorem checkWinner_first_win_witness :
    comboWin [some Player.X, some Player.X, some Player.X,
      some Player.O, some Player.O, none, none, none, none] Player.X (0, 1, 2) = true ∧
    ∃ n : ℕ, ∃ hn : n < winCombos.length,
      winCombos.get ⟨n, hn⟩ = (0, 1, 2) ∧
      ∀ m (hm : m < n),
        comboWin [some Player.X, some Player.X, some Player.X,
          some Player.O, some Player.O, none, none, none, none] Player.X
          (winCombos.get ⟨m, Nat.lt_trans hm hn⟩) = false :=
  (checkWinner_first_win
      [some Player.X, some Player.X, some Player.X,
        some Player.O, some Player.O, none, none, none, none] Player.X).2
    (0, 1, 2) (by decide)

/-! ### Game controller state and `makeMove` -/

/-- The controller's reactive state: `board`, `currentPlayer`,
`gameFinished`, `scores` (split into the two entries), `isThinking`,
`winnerCells`. -/
structure GameState : Type where
  board : Board
  currentPlayer : Player
  gameFinished : Bool
  scoreX : ℕ
  scoreO : ℕ
  isThinking : Bool
  winnerCells : List ℕ
deriving DecidableEq, Repr

/-- Read a `scores` entry by player symbol. -/
def GameState.scoreOf (s : GameState) : Player → ℕ
  | Player.X => s.scoreX
  | Player.O => s.scoreO

/-- `makeMove(cellIndex, player)`: rejected (state unchanged) when the
game is finished, the cell is not empty, or the opponent is thinking;
otherwise places the symbol, then either records the win via `handleWin`
(winner cells, finished flag, score increment), finishes as a draw on a
full board, or passes the turn to the other player. -/
def makeMove (s : GameState) (cellIndex : ℕ) (p : Player) : GameState :=
  if s.gameFinished = true ∨ cellAt s.board cellIndex ≠ some none ∨ s.isThinking = true then
    s
  else
    let newBoard := s.board.set cellIndex (some p)
    match checkWinner newBoard p with
    | some t =>
        { s with
          board := newBoard
          winnerCells := [t.1, t.2.1, t.2.2]
          gameFinished := true
          scoreX := if p = Player.X then s.scoreX + 1 else s.scoreX
          scoreO := if p = Player.O then s.scoreO + 1 else s.scoreO }
    | none =>
        if (getEmptyCells newBoard).length = 0 then
          { s with board := newBoard, gameFinished := true }
        else
          { s with board := newBoard, currentPlayer := Player.other p }

/-- The state produced by the component's initial `useState` calls. -/
def initialState : GameState :=
  { board := List.replicate 9 none
    currentPlayer := Player.X
    gameFinished := false
    scoreX := 0
    scoreO := 0
    isThinking := false
    winnerCells := [] }

/-- `initGame()`: reset board, turn, finished flag, thinking flag and
winner cells; scores are preserved. -/
def applyInitGame (s : GameState) : GameState :=
  { s with
    board := List.replicate 9 none
    currentPlayer := Player.X
    gameFinished := false
    isThinking := false
    winnerCells := [] }

/-- `resetScore()`: zero both score entries, leave the rest alone. -/
def applyResetScore (s : GameState) : GameState :=
  { s with scoreX := 0, scoreO := 0 }

/-- `setIsThinking(t)`: the thinking flag toggled around the scheduled
opponent move. -/
def applySetThinking (s : GameState) (t : Bool) : GameState :=
  { s with isThinking := t }

/-- States reachable from the initial state by the controller's
operations: moves by the player whose turn it is (`handleCellClick` and
the scheduled opponent move both pass the current player), restart,
score reset, and thinking-flag changes. -/
inductive Reachable : GameState → Prop
  | init : Reachable initialState
  | move {s : GameState} (i : ℕ) : Reachable s → Reachable (makeMove s i s.currentPlayer)
  | restart {s : GameState} : Reachable s → Reachable (applyInitGame s)
  | resetScore {s : GameState} : Reachable s → Reachable (applyResetScore s)
  | setThinking {s : GameState} (t : Bool) : Reachable s → Reachable (applySetThinking s t)

/-- Number of cells holding `p`. -/
def countP (b : Board) (p : Player) : ℕ :=
  b.count (some p)

/-- Setting a cell that currently holds an empty value increments the
count of the placed symbol and leaves the other symbol's count. -/
theorem countP_set (b : Board) (i : ℕ) (hb : cellAt b i = some none)
    (p q : Player) :
    countP (b.set i (some p)) q = countP b q + if p = q then 1 else 0 := by
  induction b generalizing i with
  | nil => simp [cellAt, List.get?] at hb
  | cons c t ih =>
    match i with
    | 0 =>
      simp only [cellAt, List.get?, Option.some.injEq] at hb
      subst hb
      simp only [List.set, countP, List.count_cons]
      by_cases hpq : p = q <;> simp [hpq]
    | Nat.succ i' =>
      simp only [cellAt, List.get?] at hb
      have := ih i' hb
      simp only [List.set, countP, List.count_cons] at *
      omega

/-- Writing a cell that exists rewrites exactly that read. -/
theorem cellAt_set_self (b : Board) (i : ℕ) (c : Cell) (h : i < b.length) :
    cellAt (b.set i c) i = some c := by
  induction b generalizing i with
  | nil => simp at h
  | cons x t ih =>
    match i with
    | 0 => rfl
    | Nat.succ i' => exact ih i' (Nat.lt_of_succ_lt_succ h)

/-- An applied (non-rejected) `makeMove` always sets the chosen cell. -/
theorem makeMove_board_of_applied (s : GameState) (i : ℕ) (p : Player)
    (h : ¬(s.gameFinished = true ∨ cellAt s.board i ≠ some none ∨ s.isThinking = true)) :
    (makeMove s i p).board = s.board.set i (some p) := by
  simp only [makeMove, if_neg h]
  split <;> first | rfl | split <;> rfl

/-- A guarded (finished game / occupied cell / thinking) `makeMove` is
the identity on the state. -/
theorem makeMove_rejected (s : GameState) (i : ℕ) (p : Player)
    (h : s.gameFinished = true ∨ cellAt s.board i ≠ some none ∨ s.isThinking = true) :
    makeMove s i p = s := by
  simp only [makeMove, if_pos h]

/-- **C2 counterexample**: playing `O` out of turn on the fresh board
(current player is `X`) is *not* rejected — the state changes. -/
theorem makeMove_out_of_turn_changes_state :
    makeMove initialState 0 Player.O ≠ initialState := by
  decide

/-- **C2 (amended)**: `makeMove` attempted on a finished game, on a
non-empty cell, or while the opponent is thinking is rejected with no
state change at all; and replaying the same move is idempotent — the
second application never changes the state again (hence cannot
double-count score). `makeMove` itself performs no turn check. -/
theorem makeMove_reject_idempotent (s : GameState) (i : ℕ) (p : Player) :
    ((s.gameFinished = true ∨ cellAt s.board i ≠ some none ∨ s.isThinking = true) →
      makeMove s i p = s) ∧
    makeMove (makeMove s i p) i p = makeMove s i p := by
  refine ⟨makeMove_rejected s i p, ?_⟩
  by_cases h : s.gameFinished = true ∨ cellAt s.board i ≠ some none ∨ s.isThinking = true
  · rw [makeMove_rejected s i p h, makeMove_rejected s i p h]
  · push_neg at h
    obtain ⟨hfin, hcell, hthink⟩ := h
    have hlen : i < s.board.length := by
      by_contra hge
      rw [cellAt, List.get?_eq_none.mpr (Nat.le_of_not_lt hge)] at hcell
      exact (Option.some_ne_none none hcell.symm).elim
    apply makeMove_rejected
    right; left
    rw [makeMove_board_of_applied s i p]
    · rw [cellAt_set_self s.board i (some p) hlen]
      simp
    · intro hguard
      rcases hguard with h1 | h2 | h3
      · exact absurd h1 (by simp_all)
      · exact h2 hcell
      · simp_all

/-- Witness for `makeMove_reject_idempotent` on a finished game. -/
theorem makeMove_reject_idempotent_witness :
    makeMove { initialState with gameFinished := true } 0 Player.X =
      { initialState with gameFinished := true } ∧
    makeMove (makeMove { initialState with gameFinished := true } 0 Player.X) 0 Player.X =
      makeMove { initialState with gameFinished := true } 0 Player.X :=
  ⟨(makeMove_reject_idempotent { initialState with gameFinished := true } 0 Player.X).1
      (Or.inl (by decide)),
   (makeMove_reject_idempotent { initialState with gameFinished := true } 0 Player.X).2⟩

/-- The two counts agree, or X leads by exactly one. -/
def BalancedCounts (s : GameState) : Prop :=
  countP s.board Player.X = countP s.board Player.O ∨
  countP s.board Player.X = countP s.board Player.O + 1

/-- Strengthened turn/count invariant: while the game is running the
current player determines the count difference; after it finishes the
difference is still 0 or 1. -/
def StrongInv (s : GameState) : Prop :=
  if s.gameFinished = true then BalancedCounts s
  else
    (s.currentPlayer = Player.X → countP s.board Player.X = countP s.board Player.O) ∧
    (s.currentPlayer = Player.O → countP s.board Player.X = countP s.board Player.O + 1)


theorem strongInv_move (s : GameState) (i : ℕ) (hs : StrongInv s) :
    StrongInv (makeMove s i s.currentPlayer) := by
  by_cases h : s.gameFinished = true ∨ cellAt s.board i ≠ some none ∨ s.isThinking = true
  · rwa [makeMove_rejected s i s.currentPlayer h]
  · push_neg at h
    obtain ⟨hfin, hcell, hthink⟩ := h
    have hfin' : s.gameFinished = false := by simpa using hfin
    have hg : ¬(s.gameFinished = true ∨ cellAt s.board i ≠ some none ∨
        s.isThinking = true) := by
      rw [hfin']
      simp [hcell, hthink]
    rw [StrongInv, if_neg (by simp [hfin'])] at hs
    obtain ⟨hsX, hsO⟩ := hs
    cases hp : s.currentPlayer with
    | X =>
      have hbal : countP (s.board.set i (some Player.X)) Player.X =
          countP (s.board.set i (some Player.X)) Player.O + 1 := by
        have hX := countP_set s.board i hcell Player.X Player.X
        have hO := countP_set s.board i hcell Player.X Player.O
        have hbase := hsX hp
        simp at hX hO
        omega
      simp only [makeMove, if_neg hg]
      split
      · rw [StrongInv, if_pos rfl]
        exact Or.inr hbal
      · split
        · rw [StrongInv, if_pos rfl]
          exact Or.inr hbal
        · rw [StrongInv, if_neg (fun hx => hfin hx)]
          exact ⟨fun hx => absurd hx (fun hx' => Player.noConfusion hx'), fun _ => hbal⟩
    | O =>
      have hbal : countP (s.board.set i (some Player.O)) Player.X =
          countP (s.board.set i (some Player.O)) Player.O := by
        have hX := countP_set s.board i hcell Player.O Player.X
        have hO := countP_set s.board i hcell Player.O Player.O
        have hbase := hsO hp
        simp at hX hO
        omega
      simp only [makeMove, if_neg hg]
      split
      · rw [StrongInv, if_pos rfl]
        exact Or.inl hbal
      · split
        · rw [StrongInv, if_pos rfl]
          exact Or.inl hbal
        · rw [StrongInv, if_neg (fun hx => hfin hx)]
          exact ⟨fun _ => hbal, fun hx => absurd hx (fun hx' => Player.noConfusion hx')⟩

theorem strongInv_reachable (s : GameState) (h : Reachable s) : StrongInv s := by
  induction h with
  | init =>
    rw [StrongInv, if_neg (fun hx => Bool.noConfusion hx)]
    exact ⟨fun _ => by decide, fun hx => Player.noConfusion hx⟩
  | move i _ ih => exact strongInv_move _ i ih
  | restart _ ih =>
    rw [StrongInv, if_neg (fun hx => Bool.noConfusion hx)]
    refine ⟨fun _ => ?_, fun hx => absurd hx (fun hx' => Player.noConfusion hx')⟩
    show countP (List.replicate 9 none) Player.X = countP (List.replicate 9 none) Player.O
    decide
  | resetScore _ ih => exact ih
  | setThinking t _ ih => exact ih

/-- **C5**: every state reachable from the initial empty board via the
controller's operations (moves by the current player, restart, score
reset, thinking-flag changes) has `count(X) - count(O)` equal to 0 or 1. -/
theorem reachable_balanced (s : GameState) (h : Reachable s) :
    countP s.board Player.X = countP s.board Player.O ∨
    countP s.board Player.X = countP s.board Player.O + 1 := by
  have hs := strongInv_reachable s h
  rw [StrongInv] at hs
  by_cases hf : s.gameFinished = true
  · rw [if_pos hf] at hs
    exact hs
  · rw [if_neg hf] at hs
    cases hp : s.currentPlayer with
    | X => exact Or.inl (hs.1 hp)
    | O => exact Or.inr (hs.2 hp)

/-- Witness for `reachable_balanced`: the state after one centre move. -/
theorem reachable_balanced_witness :
    countP (makeMove initialState 4 initialState.currentPlayer).board Player.X =
      countP (makeMove initialState 4 initialState.currentPlayer).board Player.O ∨
    countP (makeMove initialState 4 initialState.currentPlayer).board Player.X =
      countP (makeMove initialState 4 initialState.currentPlayer).board Player.O + 1 :=
  reachable_balanced _ (Reachable.move 4 Reachable.init)

/-- **C6**: when an applied `makeMove` produces a win for `p`, the
resulting state is finished, records the winning combination (whose
three cells all hold `p` on the resulting board), increments `p`'s score
entry by exactly 1 and leaves the other entry unchanged. -/
theorem makeMove_win_effect (s : GameState) (i : ℕ) (p : Player) (t : ℕ × ℕ × ℕ)
    (hg : ¬(s.gameFinished = true ∨ cellAt s.board i ≠ some none ∨ s.isThinking = true))
    (hw : checkWinner (s.board.set i (some p)) p = some t) :
    (makeMove s i p).gameFinished = true ∧
    (makeMove s i p).winnerCells = [t.1, t.2.1, t.2.2] ∧
    comboWin (makeMove s i p).board p t = true ∧
    (makeMove s i p).scoreOf p = s.scoreOf p + 1 ∧
    (makeMove s i p).scoreOf (Player.other p) = s.scoreOf (Player.other p) := by
  have hbw : comboWin (s.board.set i (some p)) p t = true := List.find?_some hw
  simp only [makeMove, if_neg hg, hw]
  cases p with
  | X => simp [GameState.scoreOf, Player.other, hbw]
  | O => simp [GameState.scoreOf, Player.other, hbw]

/-- Witness for `makeMove_win_effect`: X completes the top row. -/
theorem makeMove_win_effect_witness :
    (makeMove { initialState with
        board := [some Player.X, some Player.X, none, some Player.O, some Player.O,
          none, none, none, none] } 2 Player.X).gameFinished = true ∧
    (makeMove { initialState with
        board := [some Player.X, some Player.X, none, some Player.O, some Player.O,
          none, none, none, none] } 2 Player.X).winnerCells = [0, 1, 2] ∧
    comboWin (makeMove { initialState with
        board := [some Player.X, some Player.X, none, some Player.O, some Player.O,
          none, none, none, none] } 2 Player.X).board Player.X (0, 1, 2) = true ∧
    (makeMove { initialState with
        board := [some Player.X, some Player.X, none, some Player.O, some Player.O,
          none, none, none, none] } 2 Player.X).scoreOf Player.X =
      GameState.scoreOf { initialState with
        board := [some Player.X, some Player.X, none, some Player.O, some Player.O,
          none, none, none, none] } Player.X + 1 ∧
    (makeMove { initialState with
        board := [some Player.X, some Player.X, none, some Player.O, some Player.O,
          none, none, none, none] } 2 Player.X).scoreOf (Player.other Player.X) =
      GameState.scoreOf { initialState with
        board := [some Player.X, some Player.X, none, some Player.O, some Player.O,
          none, none, none, none] } (Player.other Player.X) :=
  makeMove_win_effect _ 2 Player.X (0, 1, 2) (by decide) (by decide)

/-! ### Opponent policy: minimax with alpha-beta pruning -/

/-- The JS number domain used by the search: integers together with
`-Infinity` (`⊥`) and `+Infinity` (`⊤`). -/
abbrev EInt : Type := WithBot (WithTop ℤ)

/-- An ordinary (finite) search value. -/
def jint (z : ℤ) : EInt :=
  ((z : WithTop ℤ) : WithBot (WithTop ℤ))

mutual

/-- `minimax(boardState, depth, isMaximizing, alpha, beta)`: evaluated
terminals are a win for `O` (`10 - depth`), a win for `X`
(`depth - 10`), a full board (`0`) and the depth cutoff `depth > 6`
(`0`); otherwise the maximizing (`O`) or minimizing (`X`) loop over the
empty cells runs with alpha-beta pruning. -/
def minimax (b : Board) (depth : ℕ) (isMax : Bool) (alpha beta : EInt) : EInt :=
  if (checkWinner b Player.O).isSome then jint (10 - (depth : ℤ))
  else if (checkWinner b Player.X).isSome then jint ((depth : ℤ) - 10)
  else if (getEmptyCells b).length = 0 then jint 0
  else if hd : 6 < depth then jint 0
  else if isMax then
    abLoop b depth true (getEmptyCells b) ⊥ alpha beta (Nat.le_of_not_lt hd)
  else
    abLoop b depth false (getEmptyCells b) ⊤ alpha beta (Nat.le_of_not_lt hd)
termination_by (8 - depth, (getEmptyCells b).length + 1)

/-- The `for (let cellIndex of emptyCells)` loop of `minimax`: `acc` is
`maxEval` / `minEval`, updated together with `alpha` / `beta`, breaking
(and returning `acc`) as soon as `beta <= alpha`. -/
def abLoop (b : Board) (depth : ℕ) (isMax : Bool) (cells : List ℕ)
    (acc alpha beta : EInt) (hd : depth ≤ 6) : EInt :=
  match cells with
  | [] => acc
  | i :: rest =>
    if isMax then
      let ev := minimax (b.set i (some Player.O)) (depth + 1) false alpha beta
      let acc2 := max acc ev
      let alpha2 := max alpha ev
      if beta ≤ alpha2 then acc2
      else abLoop b depth true rest acc2 alpha2 beta hd
    else
      let ev := minimax (b.set i (some Player.X)) (depth + 1) true alpha beta
      let acc2 := min acc ev
      let beta2 := min beta ev
      if beta2 ≤ alpha then acc2
      else abLoop b depth false rest acc2 alpha beta2 hd
termination_by (8 - depth, cells.length)

end

mutual

/-- The same depth-weighted minimax, without alpha-beta pruning: the
reference function the pruned search is compared against. Terminal
evaluation (win for `O`, win for `X`, full board, depth cutoff) is
identical to `minimax`. -/
def minimaxPlain (b : Board) (depth : ℕ) (isMax : Bool) : EInt :=
  if (checkWinner b Player.O).isSome then jint (10 - (depth : ℤ))
  else if (checkWinner b Player.X).isSome then jint ((depth : ℤ) - 10)
  else if (getEmptyCells b).length = 0 then jint 0
  else if hd : 6 < depth then jint 0
  else if isMax then plainLoop b depth true (getEmptyCells b) ⊥ (Nat.le_of_not_lt hd)
  else plainLoop b depth false (getEmptyCells b) ⊤ (Nat.le_of_not_lt hd)
termination_by (8 - depth, (getEmptyCells b).length + 1)

/-- Unpruned loop: fold `max` (maximizing) or `min` (minimizing) of the
child values over all empty cells. -/
def plainLoop (b : Board) (depth : ℕ) (isMax : Bool) (cells : List ℕ)
    (acc : EInt) (hd : depth ≤ 6) : EInt :=
  match cells with
  | [] => acc
  | i :: rest =>
    if isMax then
      plainLoop b depth true rest
        (max acc (minimaxPlain (b.set i (some Player.O)) (depth + 1) false)) hd
    else
      plainLoop b depth false rest
        (min acc (minimaxPlain (b.set i (some Player.X)) (depth + 1) true)) hd
termination_by (8 - depth, cells.length)

end

/-! ### Strategic heuristic and move selection -/

/-- `Math.floor(r * n)` for a uniform draw `r` and a list length `n`. -/
def randIndex (r : ℚ) (n : ℕ) : ℕ :=
  (Int.floor (r * n)).toNat

/-- `list[Math.floor(Math.random() * list.length)]`. -/
def pickRandom (l : List ℕ) (r : ℚ) : ℕ :=
  l.getD (randIndex r l.length) 0

/-- `getStrategicMove(boardState)` (easy/medium tiers): first winning
move for `O`, else first blocking move against `X`, else the centre,
else a random empty corner, else a random empty cell. The draw `r`
models the single `Math.random()` call the executed branch makes. -/
def getStrategicMove (b : Board) (r : ℚ) : ℕ :=
  match (getEmptyCells b).find?
      (fun i => (checkWinner (b.set i (some Player.O)) Player.O).isSome) with
  | some i => i
  | none =>
    match (getEmptyCells b).find?
        (fun i => (checkWinner (b.set i (some Player.X)) Player.X).isSome) with
    | some i => i
    | none =>
      if cellAt b 4 = some none then 4
      else
        let availableCorners := [0, 2, 6, 8].filter (fun i => cellAt b i = some none)
        if availableCorners.length ≠ 0 then pickRandom availableCorners r
        else pickRandom (getEmptyCells b) r

/-- A difficulty tier. -/
inductive Difficulty : Type
  | easy : Difficulty
  | medium : Difficulty
  | expert : Difficulty
deriving DecidableEq, Repr

/-- The parts of an opponent profile the move selection reads:
difficulty tier and error rate. -/
structure OpponentProfile : Type where
  difficulty : Difficulty
  errorRate : ℚ
deriving DecidableEq, Repr

/-- Alex: easy, error rate 0.3. -/
def alex : OpponentProfile := ⟨Difficulty.easy, 3 / 10⟩

/-- Maya: medium, error rate 0.15. -/
def maya : OpponentProfile := ⟨Difficulty.medium, 15 / 100⟩

/-- Victor: expert, error rate 0.05. -/
def victor : OpponentProfile := ⟨Difficulty.expert, 5 / 100⟩

/-- One iteration of the expert loop: keep the first strictly better
minimax value (`if (moveValue > bestValue)`). -/
def expertStep (b : Board) (acc : ℤ × EInt) (i : ℕ) : ℤ × EInt :=
  let moveValue := minimax (b.set i (some Player.O)) 0 false ⊥ ⊤
  if acc.2 < moveValue then ((i : ℤ), moveValue) else acc

/-- `getBestMove(boardState)`: `null` when no empty cell exists;
otherwise error-injection (`Math.random() < errorRate` picks a random
empty cell), then dispatch on the difficulty tier; the expert tier folds
over the empty cells keeping the first strictly-better minimax value,
starting from `bestMove = -1`, `bestValue = -Infinity`. The draws model
the successive `Math.random()` calls: `r1` the error-injection test,
`r2` the error move, `r3` the easy-tier 0.6 test, `r4` the random pick
made by whichever branch runs. -/
def getBestMove (prof : OpponentProfile) (b : Board) (r1 r2 r3 r4 : ℚ) : Option ℕ :=
  let emptyCells := getEmptyCells b
  if emptyCells.length = 0 then none
  else if r1 < prof.errorRate then some (pickRandom emptyCells r2)
  else
    match prof.difficulty with
    | Difficulty.easy =>
        some (if r3 < 6 / 10 then getStrategicMove b r4 else pickRandom emptyCells r4)
    | Difficulty.medium => some (getStrategicMove b r4)
    | Difficulty.expert =>
        let best := emptyCells.foldl (expertStep b) ((-1 : ℤ), (⊥ : EInt))
        some (if best.1 = -1 then emptyCells.headD 0 else best.1.toNat)

/-- Membership in `getEmptyCells`: exactly the in-range empty indices. -/
theorem mem_getEmptyCells (b : Board) (i : ℕ) :
    i ∈ getEmptyCells b ↔ i < b.length ∧ cellAt b i = some none := by
  simp [getEmptyCells, List.mem_filter, List.mem_range]

/-- The empty-cell list is strictly ascending. -/
theorem getEmptyCells_pairwise (b : Board) : (getEmptyCells b).Pairwise (· < ·) :=
  (List.pairwise_lt_range _).filter _

/-- `Math.floor(r * n)` is a valid index for `0 ≤ r < 1` and `n ≠ 0`. -/
theorem randIndex_lt (r : ℚ) (n : ℕ) (h0 : 0 ≤ r) (h1 : r < 1) (hn : n ≠ 0) :
    randIndex r n < n := by
  rw [randIndex]
  have hfl : Int.floor (r * n) < (n : ℤ) := by
    rw [Int.floor_lt]
    push_cast
    have hnq : (0 : ℚ) < n := by
      exact_mod_cast Nat.pos_of_ne_zero hn
    calc r * n < 1 * n := by exact mul_lt_mul_of_pos_right h1 hnq
    _ = n := one_mul _
  omega

/-- A random pick from a non-empty list is a member of the list. -/
theorem pickRandom_mem (l : List ℕ) (r : ℚ) (hl : l ≠ []) (h0 : 0 ≤ r) (h1 : r < 1) :
    pickRandom l r ∈ l := by
  have hlt : randIndex r l.length < l.length :=
    randIndex_lt r l.length h0 h1 (fun h => hl (List.length_eq_zero.mp h))
  rw [pickRandom, List.getD, List.get?_eq_get hlt]
  exact List.get_mem l _ hlt

/-- Placing `p` at `i` completes a win for `p` (the body of the
winning/blocking scans of `getStrategicMove`). -/
abbrev winsAt (b : Board) (p : Player) (i : ℕ) : Prop :=
  (checkWinner (b.set i (some p)) p).isSome = true

/-- **C4**: the strategic heuristic obeys its priority order on every
board with an empty cell: take an immediate win for `O` if one exists;
else block an immediate win of `X`; else the centre if empty; else an
empty corner if any; else some empty cell. -/
theorem getStrategicMove_priority (b : Board) (r : ℚ)
    (hne : getEmptyCells b ≠ []) (h0 : 0 ≤ r) (h1 : r < 1) :
    ((∃ i ∈ getEmptyCells b, winsAt b Player.O i) →
      winsAt b Player.O (getStrategicMove b r) ∧ getStrategicMove b r ∈ getEmptyCells b) ∧
    ((∀ i ∈ getEmptyCells b, ¬winsAt b Player.O i) →
      (∃ i ∈ getEmptyCells b, winsAt b Player.X i) →
      winsAt b Player.X (getStrategicMove b r) ∧ getStrategicMove b r ∈ getEmptyCells b) ∧
    ((∀ i ∈ getEmptyCells b, ¬winsAt b Player.O i) →
      (∀ i ∈ getEmptyCells b, ¬winsAt b Player.X i) →
      cellAt b 4 = some none → getStrategicMove b r = 4) ∧
    ((∀ i ∈ getEmptyCells b, ¬winsAt b Player.O i) →
      (∀ i ∈ getEmptyCells b, ¬winsAt b Player.X i) →
      cellAt b 4 ≠ some none →
      ([0, 2, 6, 8].filter (fun i => cellAt b i = some none)).length ≠ 0 →
      getStrategicMove b r ∈ [0, 2, 6, 8] ∧ cellAt b (getStrategicMove b r) = some none) ∧
    ((∀ i ∈ getEmptyCells b, ¬winsAt b Player.O i) →
      (∀ i ∈ getEmptyCells b, ¬winsAt b Player.X i) →
      cellAt b 4 ≠ some none →
      ([0, 2, 6, 8].filter (fun i => cellAt b i = some none)).length = 0 →
      getStrategicMove b r ∈ getEmptyCells b) := by
  refine ⟨?_, ?_, ?_, ?_, ?_⟩
  · rintro ⟨j, hj, hw⟩
    have hfs : ((getEmptyCells b).find?
        (fun i => (checkWinner (b.set i (some Player.O)) Player.O).isSome)).isSome :=
      find?_isSome_of_exists hj hw
    obtain ⟨i, hi⟩ := Option.isSome_iff_exists.mp hfs
    simp only [getStrategicMove, hi]
    refine ⟨?_, List.mem_of_find?_eq_some hi⟩
    have hw' := List.find?_some hi
    exact hw'
  · intro hnoO hX
    have hO : (getEmptyCells b).find?
        (fun i => (checkWinner (b.set i (some Player.O)) Player.O).isSome) = none :=
      List.find?_eq_none.mpr hnoO
    obtain ⟨j, hj, hw⟩ := hX
    have hfs : ((getEmptyCells b).find?
        (fun i => (checkWinner (b.set i (some Player.X)) Player.X).isSome)).isSome :=
      find?_isSome_of_exists hj hw
    obtain ⟨i, hi⟩ := Option.isSome_iff_exists.mp hfs
    simp only [getStrategicMove, hO, hi]
    refine ⟨?_, List.mem_of_find?_eq_some hi⟩
    have hw' := List.find?_some hi
    exact hw'
  · intro hnoO hnoX hc
    rw [getStrategicMove, List.find?_eq_none.mpr hnoO, List.find?_eq_none.mpr hnoX,
      if_pos hc]
  · intro hnoO hnoX hc hcorner
    rw [getStrategicMove, List.find?_eq_none.mpr hnoO, List.find?_eq_none.mpr hnoX,
      if_neg hc, if_pos hcorner]
    have hmem : pickRandom ([0, 2, 6, 8].filter (fun i => cellAt b i = some none)) r ∈
        [0, 2, 6, 8].filter (fun i => cellAt b i = some none) :=
      pickRandom_mem _ r (fun h => hcorner (by rw [h]; rfl)) h0 h1
    have := List.mem_filter.mp hmem
    exact ⟨this.1, by simpa using this.2⟩
  · intro hnoO hnoX hc hcorner
    rw [getStrategicMove, List.find?_eq_none.mpr hnoO, List.find?_eq_none.mpr hnoX,
      if_neg hc, if_neg (by simpa using hcorner)]
    exact pickRandom_mem _ r hne h0 h1

/-- Witness for `getStrategicMove_priority`: on the empty board the
heuristic takes the centre. -/
theorem getStrategicMove_priority_witness :
    getStrategicMove (List.replicate 9 none) 0 = 4 :=
  (getStrategicMove_priority (List.replicate 9 none) 0 (by decide) (by norm_num)
      (by norm_num)).2.2.1 (by decide) (by decide) (by decide)

/-- The strategic heuristic always answers an empty cell of the board. -/
theorem getStrategicMove_mem (b : Board) (r : ℚ)
    (hne : getEmptyCells b ≠ []) (h0 : 0 ≤ r) (h1 : r < 1) :
    getStrategicMove b r ∈ getEmptyCells b := by
  rw [getStrategicMove]
  cases hO : (getEmptyCells b).find?
      (fun i => (checkWinner (b.set i (some Player.O)) Player.O).isSome) with
  | some i => exact List.mem_of_find?_eq_some hO
  | none =>
    cases hX : (getEmptyCells b).find?
        (fun i => (checkWinner (b.set i (some Player.X)) Player.X).isSome) with
    | some i => exact List.mem_of_find?_eq_some hX
    | none =>
      by_cases hc : cellAt b 4 = some none
      · rw [if_pos hc]
        rw [mem_getEmptyCells]
        obtain ⟨hlen, -⟩ := List.get?_eq_some.mp hc
        exact ⟨hlen, hc⟩
      · rw [if_neg hc]
        by_cases hcor : ([0, 2, 6, 8].filter (fun i => cellAt b i = some none)).length ≠ 0
        · rw [if_pos hcor]
          have hmem : pickRandom ([0, 2, 6, 8].filter (fun i => cellAt b i = some none)) r ∈
              [0, 2, 6, 8].filter (fun i => cellAt b i = some none) :=
            pickRandom_mem _ r (fun h => hcor (by rw [h]; rfl)) h0 h1
          have hf := List.mem_filter.mp hmem
          have hcell : cellAt b (pickRandom
              ([0, 2, 6, 8].filter (fun i => cellAt b i = some none)) r) = some none := by
            simpa using hf.2
          rw [mem_getEmptyCells]
          obtain ⟨hlen, -⟩ := List.get?_eq_some.mp hcell
          exact ⟨hlen, hcell⟩
        · rw [if_neg hcor]
          exact pickRandom_mem _ r hne h0 h1

/-- The first projection of the expert fold is either the initial
`bestMove` or one of the scanned cells. -/
theorem expertFold_fst (b : Board) :
    ∀ (cells : List ℕ) (acc : ℤ × EInt),
      (cells.foldl (expertStep b) acc).1 = acc.1 ∨
      ∃ j ∈ cells, (cells.foldl (expertStep b) acc).1 = (j : ℤ) := by
  intro cells
  induction cells with
  | nil => intro acc; exact Or.inl rfl
  | cons i rest ih =>
    intro acc
    rw [List.foldl_cons]
    rcases ih (expertStep b acc i) with h | ⟨j, hj, h⟩
    · rw [h, expertStep]
      by_cases hlt : acc.2 < minimax (b.set i (some Player.O)) 0 false ⊥ ⊤
      · rw [if_pos hlt]
        exact Or.inr ⟨i, List.mem_cons_self i rest, rfl⟩
      · rw [if_neg hlt]
        exact Or.inl rfl
    · exact Or.inr ⟨j, List.mem_cons_of_mem i hj, h⟩

/-- **C10**: on any 9-cell board with at least one empty cell, for every
profile and every admissible sequence of random draws, `getBestMove`
returns an index in `[0, 8]` whose cell is currently empty. -/
theorem getBestMove_valid (prof : OpponentProfile) (b : Board) (r1 r2 r3 r4 : ℚ)
    (hb : b.length = 9) (hne : getEmptyCells b ≠ [])
    (h10 : 0 ≤ r1) (h11 : r1 < 1) (h20 : 0 ≤ r2) (h21 : r2 < 1)
    (h30 : 0 ≤ r3) (h31 : r3 < 1) (h40 : 0 ≤ r4) (h41 : r4 < 1) :
    ∃ i, getBestMove prof b r1 r2 r3 r4 = some i ∧ i < 9 ∧ cellAt b i = some none := by
  have hlen : (getEmptyCells b).length ≠ 0 := fun h => hne (List.length_eq_zero.mp h)
  have hmem_ok : ∀ i ∈ getEmptyCells b, i < 9 ∧ cellAt b i = some none := by
    intro i hi
    have := (mem_getEmptyCells b i).mp hi
    exact ⟨hb ▸ this.1, this.2⟩
  rw [getBestMove]
  simp only [if_neg hlen]
  by_cases herr : r1 < prof.errorRate
  · rw [if_pos herr]
    exact ⟨_, rfl, hmem_ok _ (pickRandom_mem _ r2 hne h20 h21)⟩
  · rw [if_neg herr]
    cases hdiff : prof.difficulty with
    | easy =>
      by_cases h6 : r3 < 6 / 10
      · rw [if_pos h6]
        exact ⟨_, rfl, hmem_ok _ (getStrategicMove_mem b r4 hne h40 h41)⟩
      · rw [if_neg h6]
        exact ⟨_, rfl, hmem_ok _ (pickRandom_mem _ r4 hne h40 h41)⟩
    | medium =>
      exact ⟨_, rfl, hmem_ok _ (getStrategicMove_mem b r4 hne h40 h41)⟩
    | expert =>
      rcases expertFold_fst b (getEmptyCells b) ((-1 : ℤ), (⊥ : EInt)) with h | ⟨j, hj, h⟩
      · rw [h, if_pos rfl]
        refine ⟨_, rfl, hmem_ok _ ?_⟩
        cases hcells : getEmptyCells b with
        | nil => exact absurd hcells hne
        | cons x t => exact List.mem_cons_self x t
      · rw [h, if_neg (show ¬((j : ℤ) = -1) by omega)]
        refine ⟨_, rfl, ?_⟩
        have hjn : ((j : ℤ)).toNat = j := Int.toNat_natCast j
        rw [hjn]
        exact hmem_ok j hj

/-- Witness for `getBestMove_valid`: Alex on the empty board with all
draws 0 (error injection fires and picks cell 0). -/
theorem getBestMove_valid_witness :
    ∃ i, getBestMove alex (List.replicate 9 none) 0 0 0 0 = some i ∧ i < 9 ∧
      cellAt (List.replicate 9 none) i = some none :=
  getBestMove_valid alex (List.replicate 9 none) 0 0 0 0 (by decide) (by decide)
    (by norm_num) (by norm_num) (by norm_num) (by norm_num)
    (by norm_num) (by norm_num) (by norm_num) (by norm_num)

/-! ### Failure behaviour of move selection on a full board -/

/-- The error taxonomy named by the specification. -/
inductive GameError : Type
  | illegalMove : GameError
  | invariantViolation : GameError
deriving DecidableEq, Repr

/-- `getBestMove` viewed as a JS call that either returns normally or
throws: its body contains no `throw` statement, so every call returns
normally (`Except.ok`). -/
def getBestMoveE (prof : OpponentProfile) (b : Board) (r1 r2 r3 r4 : ℚ) :
    Except GameError (Option ℕ) :=
  Except.ok (getBestMove prof b r1 r2 r3 r4)

/-- **C9 counterexample**: invoked on a board with no empty cells,
`getBestMove` does not fail with an `InvariantViolation` (nor any other
error): it returns normally with `null`. -/
theorem getBestMove_full_board_no_error :
    getBestMoveE victor
      [some Player.X, some Player.O, some Player.X, some Player.O, some Player.X,
        some Player.O, some Player.O, some Player.X, some Player.O] 0 0 0 0 =
      Except.ok none ∧
    getBestMoveE victor
      [some Player.X, some Player.O, some Player.X, some Player.O, some Player.X,
        some Player.O, some Player.O, some Player.X, some Player.O] 0 0 0 0 ≠
      Except.error GameError.invariantViolation := by
  constructor
  · rfl
  · intro h
    cases h

/-- **C9 (amended)**: invoked with no empty cells, `getBestMove` returns
normally with `null` (no move), raising no error; the caller treats the
`null` as a no-op. -/
theorem getBestMove_full_board_none (prof : OpponentProfile) (b : Board)
    (r1 r2 r3 r4 : ℚ) (h : getEmptyCells b = []) :
    getBestMoveE prof b r1 r2 r3 r4 = Except.ok none := by
  rw [getBestMoveE, getBestMove]
  simp [h]

/-- Witness for `getBestMove_full_board_none` on a concrete full board. -/
theorem getBestMove_full_board_none_witness :
    getBestMoveE alex
      [some Player.O, some Player.X, some Player.O, some Player.X, some Player.O,
        some Player.X, some Player.X, some Player.O, some Player.X] 0 0 0 0 =
      Except.ok none :=
  getBestMove_full_board_none alex _ 0 0 0 0 (by decide)

/-! ### Bounds on minimax values -/

theorem jint_le_jint {a c : ℤ} : jint a ≤ jint c ↔ a ≤ c := by
  rw [jint, jint, WithBot.coe_le_coe, WithTop.coe_le_coe]

theorem jint_lt_jint {a c : ℤ} : jint a < jint c ↔ a < c := by
  rw [jint, jint, WithBot.coe_lt_coe, WithTop.coe_lt_coe]

theorem bot_lt_jint (a : ℤ) : (⊥ : EInt) < jint a := WithBot.bot_lt_coe _

theorem jint_lt_top (a : ℤ) : jint a < (⊤ : EInt) := by
  rw [jint]
  exact WithBot.coe_lt_coe.mpr (WithTop.coe_lt_top a)

theorem minimax_win_O (b : Board) (d : ℕ) (m : Bool) (α β : EInt)
    (hw : (checkWinner b Player.O).isSome) :
    minimax b d m α β = jint (10 - (d : ℤ)) := by
  rw [minimax, if_pos hw]

theorem minimax_win_X (b : Board) (d : ℕ) (m : Bool) (α β : EInt)
    (hnO : ¬(checkWinner b Player.O).isSome) (hw : (checkWinner b Player.X).isSome) :
    minimax b d m α β = jint ((d : ℤ) - 10) := by
  rw [minimax, if_neg hnO, if_pos hw]

theorem minimax_full (b : Board) (d : ℕ) (m : Bool) (α β : EInt)
    (hnO : ¬(checkWinner b Player.O).isSome) (hnX : ¬(checkWinner b Player.X).isSome)
    (hful : (getEmptyCells b).length = 0) :
    minimax b d m α β = jint 0 := by
  rw [minimax, if_neg hnO, if_neg hnX, if_pos hful]

theorem minimax_cutoff (b : Board) (d : ℕ) (m : Bool) (α β : EInt)
    (hnO : ¬(checkWinner b Player.O).isSome) (hnX : ¬(checkWinner b Player.X).isSome)
    (hful : ¬(getEmptyCells b).length = 0) (h6 : 6 < d) :
    minimax b d m α β = jint 0 := by
  rw [minimax, if_neg hnO, if_neg hnX, if_neg hful, dif_pos h6]

theorem minimax_loop_max (b : Board) (d : ℕ) (α β : EInt)
    (hnO : ¬(checkWinner b Player.O).isSome) (hnX : ¬(checkWinner b Player.X).isSome)
    (hful : ¬(getEmptyCells b).length = 0) (h6 : ¬6 < d) :
    minimax b d true α β = abLoop b d true (getEmptyCells b) ⊥ α β (Nat.le_of_not_lt h6) := by
  rw [minimax, if_neg hnO, if_neg hnX, if_neg hful, dif_neg h6, if_pos rfl]

theorem minimax_loop_min (b : Board) (d : ℕ) (α β : EInt)
    (hnO : ¬(checkWinner b Player.O).isSome) (hnX : ¬(checkWinner b Player.X).isSome)
    (hful : ¬(getEmptyCells b).length = 0) (h6 : ¬6 < d) :
    minimax b d false α β = abLoop b d false (getEmptyCells b) ⊤ α β (Nat.le_of_not_lt h6) := by
  rw [minimax, if_neg hnO, if_neg hnX, if_neg hful, dif_neg h6, if_neg (by simp)]

theorem abLoop_nil (b : Board) (d : ℕ) (m : Bool) (acc α β : EInt) (hd : d ≤ 6) :
    abLoop b d m [] acc α β hd = acc := by
  rw [abLoop]

theorem abLoop_cons_max (b : Board) (d : ℕ) (i : ℕ) (rest : List ℕ)
    (acc α β : EInt) (hd : d ≤ 6) :
    abLoop b d true (i :: rest) acc α β hd =
      if β ≤ max α (minimax (b.set i (some Player.O)) (d + 1) false α β) then
        max acc (minimax (b.set i (some Player.O)) (d + 1) false α β)
      else
        abLoop b d true rest (max acc (minimax (b.set i (some Player.O)) (d + 1) false α β))
          (max α (minimax (b.set i (some Player.O)) (d + 1) false α β)) β hd := by
  rw [abLoop, if_pos rfl]

theorem abLoop_cons_min (b : Board) (d : ℕ) (i : ℕ) (rest : List ℕ)
    (acc α β : EInt) (hd : d ≤ 6) :
    abLoop b d false (i :: rest) acc α β hd =
      if min β (minimax (b.set i (some Player.X)) (d + 1) true α β) ≤ α then
        min acc (minimax (b.set i (some Player.X)) (d + 1) true α β)
      else
        abLoop b d false rest (min acc (minimax (b.set i (some Player.X)) (d + 1) true α β))
          α (min β (minimax (b.set i (some Player.X)) (d + 1) true α β)) hd := by
  rw [abLoop]
  simp only [Bool.false_eq_true, if_false]

/-- The minimizing loop never returns more than its accumulator. -/
theorem abLoop_min_le_acc (b : Board) (d : ℕ) (hd : d ≤ 6) :
    ∀ (cells : List ℕ) (acc α β : EInt), abLoop b d false cells acc α β hd ≤ acc := by
  intro cells
  induction cells with
  | nil => intro acc α β; rw [abLoop_nil]
  | cons i rest ih =>
    intro acc α β
    rw [abLoop_cons_min]
    split
    · exact min_le_left _ _
    · exact le_trans (ih _ _ _) (min_le_left _ _)

/-- The minimizing loop never returns more than its first child value. -/
theorem abLoop_min_le_first (b : Board) (d : ℕ) (hd : d ≤ 6) (i : ℕ) (rest : List ℕ)
    (acc α β : EInt) :
    abLoop b d false (i :: rest) acc α β hd ≤
      minimax (b.set i (some Player.X)) (d + 1) true α β := by
  rw [abLoop_cons_min]
  split
  · exact min_le_right _ _
  · exact le_trans (abLoop_min_le_acc b d hd rest _ α _) (min_le_right _ _)

/-- Upper bound for the maximizing loop from bounds on the accumulator
and on all child values. -/
theorem abLoop_max_le (b : Board) (d : ℕ) (hd : d ≤ 6) (c : EInt) :
    ∀ (cells : List ℕ) (acc α β : EInt),
      acc ≤ c →
      (∀ i ∈ cells, ∀ α' β' : EInt,
        minimax (b.set i (some Player.O)) (d + 1) false α' β' ≤ c) →
      abLoop b d true cells acc α β hd ≤ c := by
  intro cells
  induction cells with
  | nil => intro acc α β hacc _; rw [abLoop_nil]; exact hacc
  | cons i rest ih =>
    intro acc α β hacc hch
    rw [abLoop_cons_max]
    have hev : minimax (b.set i (some Player.O)) (d + 1) false α β ≤ c :=
      hch i (List.mem_cons_self i rest) α β
    split
    · exact max_le hacc hev
    · exact ih _ _ _ (max_le hacc hev) (fun j hj => hch j (List.mem_cons_of_mem i hj))

/-- Every minimax value at depth between 1 and 7 is at most 9. -/
theorem minimax_le_nine :
    ∀ (k d : ℕ) (b : Board) (m : Bool) (α β : EInt),
      8 ≤ d + k → 1 ≤ d → d ≤ 7 → minimax b d m α β ≤ jint 9 := by
  intro k
  induction k with
  | zero => intro d b m α β h8 h1 h7; omega
  | succ k ih =>
    intro d b m α β h8 h1 h7
    by_cases hO : (checkWinner b Player.O).isSome
    · rw [minimax_win_O b d m α β hO, jint_le_jint]; omega
    by_cases hX : (checkWinner b Player.X).isSome
    · rw [minimax_win_X b d m α β hO hX, jint_le_jint]; omega
    by_cases hful : (getEmptyCells b).length = 0
    · rw [minimax_full b d m α β hO hX hful, jint_le_jint]; omega
    by_cases h6 : 6 < d
    · rw [minimax_cutoff b d m α β hO hX hful h6, jint_le_jint]; omega
    cases m with
    | true =>
      rw [minimax_loop_max b d α β hO hX hful h6]
      exact abLoop_max_le b d (Nat.le_of_not_lt h6) (jint 9) _ _ _ _ bot_le
        (fun i _ α' β' => ih (d + 1) _ false α' β' (by omega) (by omega) (by omega))
    | false =>
      rw [minimax_loop_min b d α β hO hX hful h6]
      cases hc : getEmptyCells b with
      | nil => exact absurd (by rw [hc]; rfl) hful
      | cons i rest =>
        exact le_trans (abLoop_min_le_first b d (Nat.le_of_not_lt h6) i rest ⊤ α β)
          (ih (d + 1) _ true α β (by omega) (by omega) (by omega))

/-- A move that completes a win for `O` is evaluated at exactly `10`. -/
theorem win_child_ten (b : Board) (t : ℕ)
    (hw : (checkWinner (b.set t (some Player.O)) Player.O).isSome) :
    minimax (b.set t (some Player.O)) 0 false ⊥ ⊤ = jint 10 := by
  rw [minimax_win_O _ 0 false _ _ hw]
  norm_num

/-- Any evaluated move of `O` scores at most `10`. -/
theorem child_le_ten (b : Board) (j : ℕ) :
    minimax (b.set j (some Player.O)) 0 false ⊥ ⊤ ≤ jint 10 := by
  by_cases hO : (checkWinner (b.set j (some Player.O)) Player.O).isSome
  · rw [minimax_win_O _ 0 false _ _ hO, jint_le_jint]; omega
  by_cases hX : (checkWinner (b.set j (some Player.O)) Player.X).isSome
  · rw [minimax_win_X _ 0 false _ _ hO hX, jint_le_jint]; omega
  by_cases hful : (getEmptyCells (b.set j (some Player.O))).length = 0
  · rw [minimax_full _ 0 false _ _ hO hX hful, jint_le_jint]; omega
  · rw [minimax_loop_min _ 0 _ _ hO hX hful (by omega)]
    cases hc : getEmptyCells (b.set j (some Player.O)) with
    | nil => exact absurd (by rw [hc]; rfl) hful
    | cons i rest =>
      exact le_trans (abLoop_min_le_first _ 0 _ i rest ⊤ ⊥ ⊤)
        (le_trans (minimax_le_nine 7 1 _ true ⊥ ⊤ (by omega) (by omega) (by omega))
          (jint_le_jint.mpr (by omega)))

/-- A move that does not complete a win for `O` scores at most `9`. -/
theorem nonwin_child_le_nine (b : Board) (j : ℕ)
    (hnw : ¬(checkWinner (b.set j (some Player.O)) Player.O).isSome) :
    minimax (b.set j (some Player.O)) 0 false ⊥ ⊤ ≤ jint 9 := by
  by_cases hX : (checkWinner (b.set j (some Player.O)) Player.X).isSome
  · rw [minimax_win_X _ 0 false _ _ hnw hX, jint_le_jint]; omega
  by_cases hful : (getEmptyCells (b.set j (some Player.O))).length = 0
  · rw [minimax_full _ 0 false _ _ hnw hX hful, jint_le_jint]; omega
  · rw [minimax_loop_min _ 0 _ _ hnw hX hful (by omega)]
    cases hc : getEmptyCells (b.set j (some Player.O)) with
    | nil => exact absurd (by rw [hc]; rfl) hful
    | cons i rest =>
      exact le_trans (abLoop_min_le_first _ 0 _ i rest ⊤ ⊥ ⊤)
        (minimax_le_nine 7 1 _ true ⊥ ⊤ (by omega) (by omega) (by omega))

/-- The expert fold ignores cells that do not strictly improve on the
accumulated best value. -/
theorem expertFold_noImprove (b : Board) :
    ∀ (cells : List ℕ) (acc : ℤ × EInt),
      (∀ j ∈ cells, minimax (b.set j (some Player.O)) 0 false ⊥ ⊤ ≤ acc.2) →
      cells.foldl (expertStep b) acc = acc := by
  intro cells
  induction cells with
  | nil => intro acc _; rfl
  | cons i rest ih =>
    intro acc hle
    rw [List.foldl_cons]
    have hstep : expertStep b acc i = acc := by
      simp only [expertStep]
      rw [if_neg (not_lt.mpr (hle i (List.mem_cons_self i rest)))]
    rw [hstep]
    exact ih acc (fun j hj => hle j (List.mem_cons_of_mem i hj))

/-- If cell `t` strictly improves on everything before it and is never
strictly beaten afterwards, the expert fold selects `t`. -/
theorem expertFold_selects (b : Board) (t : ℕ) :
    ∀ (pre : List ℕ) (post : List ℕ) (acc : ℤ × EInt),
      (∀ j ∈ pre, minimax (b.set j (some Player.O)) 0 false ⊥ ⊤ <
        minimax (b.set t (some Player.O)) 0 false ⊥ ⊤) →
      (∀ j ∈ post, minimax (b.set j (some Player.O)) 0 false ⊥ ⊤ ≤
        minimax (b.set t (some Player.O)) 0 false ⊥ ⊤) →
      acc.2 < minimax (b.set t (some Player.O)) 0 false ⊥ ⊤ →
      ((pre ++ t :: post).foldl (expertStep b) acc).1 = (t : ℤ) := by
  intro pre
  induction pre with
  | nil =>
    intro post acc hpre hpost hacc
    rw [List.nil_append, List.foldl_cons]
    have hstep : expertStep b acc t =
        ((t : ℤ), minimax (b.set t (some Player.O)) 0 false ⊥ ⊤) := by
      simp only [expertStep]
      rw [if_pos hacc]
    rw [hstep, expertFold_noImprove b post _ (fun j hj => hpost j hj)]
  | cons p pre' ih =>
    intro post acc hpre hpost hacc
    rw [List.cons_append, List.foldl_cons]
    apply ih post _ (fun j hj => hpre j (List.mem_cons_of_mem p hj)) hpost
    simp only [expertStep]
    split
    · exact hpre p (List.mem_cons_self p pre')
    · exact hacc

/-- **C3**: with the expert tier and error rate forced to 0, whenever
`O` has an immediately winning empty cell, `getBestMove` returns the
first such cell in ascending index order (winning moves are valued 10,
every non-winning move at most 9, and the fold keeps the first strict
maximum). -/
theorem getBestMove_expert_takes_win (prof : OpponentProfile) (b : Board)
    (r1 r2 r3 r4 : ℚ) (hdiff : prof.difficulty = Difficulty.expert)
    (herr : prof.errorRate = 0) (h10 : 0 ≤ r1) (t : ℕ)
    (ht : t ∈ getEmptyCells b) (htw : winsAt b Player.O t)
    (hfirst : ∀ j ∈ getEmptyCells b, j < t → ¬winsAt b Player.O j) :
    getBestMove prof b r1 r2 r3 r4 = some t := by
  have hne : getEmptyCells b ≠ [] := fun h => by rw [h] at ht; exact List.not_mem_nil t ht
  have hlen : ¬((getEmptyCells b).length = 0) := fun h => hne (List.length_eq_zero.mp h)
  rw [getBestMove]
  simp only [if_neg hlen, hdiff]
  rw [if_neg (show ¬(r1 < prof.errorRate) by rw [herr]; exact not_lt.mpr h10)]
  obtain ⟨pre, post, hsplit⟩ := List.append_of_mem ht
  have hsort := getEmptyCells_pairwise b
  rw [hsplit] at hsort
  rw [List.pairwise_append] at hsort
  have hpre_lt : ∀ j ∈ pre, j < t :=
    fun j hj => hsort.2.2 j hj t (List.mem_cons_self _ _)
  have hwin10 : minimax (b.set t (some Player.O)) 0 false ⊥ ⊤ = jint 10 :=
    win_child_ten b t htw
  have hpre : ∀ j ∈ pre, minimax (b.set j (some Player.O)) 0 false ⊥ ⊤ <
      minimax (b.set t (some Player.O)) 0 false ⊥ ⊤ := by
    intro j hj
    rw [hwin10]
    have hjmem : j ∈ getEmptyCells b := by
      rw [hsplit]
      exact List.mem_append_left _ hj
    have hnw := hfirst j hjmem (hpre_lt j hj)
    exact lt_of_le_of_lt (nonwin_child_le_nine b j (by simpa using hnw))
      (jint_lt_jint.mpr (by omega))
  have hpost : ∀ j ∈ post, minimax (b.set j (some Player.O)) 0 false ⊥ ⊤ ≤
      minimax (b.set t (some Player.O)) 0 false ⊥ ⊤ := by
    intro j _
    rw [hwin10]
    exact child_le_ten b j
  have hacc : ((-1 : ℤ), (⊥ : EInt)).2 < minimax (b.set t (some Player.O)) 0 false ⊥ ⊤ := by
    rw [hwin10]
    exact bot_lt_jint 10
  have hsel := expertFold_selects b t pre post ((-1 : ℤ), (⊥ : EInt)) hpre hpost hacc
  rw [hsplit, hsel, if_neg (show ¬((t : ℤ) = -1) by omega)]
  rw [Int.toNat_natCast]

/-- Witness for `getBestMove_expert_takes_win`: `O` completes the top
row at cell 2. -/
theorem getBestMove_expert_takes_win_witness :
    getBestMove ⟨Difficulty.expert, 0⟩
      [some Player.O, some Player.O, none, none, none, none, none, none, none]
      0 0 0 0 = some 2 :=
  getBestMove_expert_takes_win ⟨Difficulty.expert, 0⟩
    [some Player.O, some Player.O, none, none, none, none, none, none, none]
    0 0 0 0 rfl rfl (by norm_num) 2 (by decide) (by decide) (by decide)

/-! ### Termination of the search, via an explicit fuel bound -/

mutual

/-- `minimax` instrumented with a fuel counter: `none` means the fuel
ran out before the call could be evaluated. Each recursive call spends
one unit of fuel; everything else is exactly `minimax`. -/
def minimaxF (fuel : ℕ) (b : Board) (depth : ℕ) (isMax : Bool)
    (alpha beta : EInt) : Option EInt :=
  match fuel with
  | 0 => none
  | fuel' + 1 =>
    if (checkWinner b Player.O).isSome then some (jint (10 - (depth : ℤ)))
    else if (checkWinner b Player.X).isSome then some (jint ((depth : ℤ) - 10))
    else if (getEmptyCells b).length = 0 then some (jint 0)
    else if 6 < depth then some (jint 0)
    else if isMax then abLoopF fuel' b depth true (getEmptyCells b) ⊥ alpha beta
    else abLoopF fuel' b depth false (getEmptyCells b) ⊤ alpha beta
termination_by (fuel, 0)

/-- The fuelled pruning loop; fails as soon as a child evaluation runs
out of fuel. -/
def abLoopF (fuel : ℕ) (b : Board) (depth : ℕ) (isMax : Bool) (cells : List ℕ)
    (acc alpha beta : EInt) : Option EInt :=
  match cells with
  | [] => some acc
  | i :: rest =>
    if isMax then
      match minimaxF fuel (b.set i (some Player.O)) (depth + 1) false alpha beta with
      | none => none
      | some ev =>
        if beta ≤ max alpha ev then some (max acc ev)
        else abLoopF fuel b depth true rest (max acc ev) (max alpha ev) beta
    else
      match minimaxF fuel (b.set i (some Player.X)) (depth + 1) true alpha beta with
      | none => none
      | some ev =>
        if min beta ev ≤ alpha then some (min acc ev)
        else abLoopF fuel b depth false rest (min acc ev) alpha (min beta ev)
termination_by (fuel, cells.length + 1)

end

theorem abLoopF_nil (fuel : ℕ) (b : Board) (d : ℕ) (m : Bool) (acc α β : EInt) :
    abLoopF fuel b d m [] acc α β = some acc := by
  rw [abLoopF]

theorem abLoopF_cons_max (fuel : ℕ) (b : Board) (d : ℕ) (i : ℕ) (rest : List ℕ)
    (acc α β : EInt) :
    abLoopF fuel b d true (i :: rest) acc α β =
      match minimaxF fuel (b.set i (some Player.O)) (d + 1) false α β with
      | none => none
      | some ev =>
        if β ≤ max α ev then some (max acc ev)
        else abLoopF fuel b d true rest (max acc ev) (max α ev) β := by
  rw [abLoopF, if_pos rfl]

theorem abLoopF_cons_min (fuel : ℕ) (b : Board) (d : ℕ) (i : ℕ) (rest : List ℕ)
    (acc α β : EInt) :
    abLoopF fuel b d false (i :: rest) acc α β =
      match minimaxF fuel (b.set i (some Player.X)) (d + 1) true α β with
      | none => none
      | some ev =>
        if min β ev ≤ α then some (min acc ev)
        else abLoopF fuel b d false rest (min acc ev) α (min β ev) := by
  rw [abLoopF]
  simp only [Bool.false_eq_true, if_false]

/-- With enough remaining fuel the fuelled loop agrees with the loop of
the total `minimax`. -/
theorem abLoopF_eq_abLoop (fuel : ℕ) (b : Board) (d : ℕ) (hd : d ≤ 6)
    (hch : ∀ (b' : Board) (m' : Bool) (α' β' : EInt),
      minimaxF fuel b' (d + 1) m' α' β' = some (minimax b' (d + 1) m' α' β')) (m : Bool) :
    ∀ (cells : List ℕ) (acc α β : EInt),
      abLoopF fuel b d m cells acc α β = some (abLoop b d m cells acc α β hd) := by
  intro cells
  induction cells with
  | nil => intro acc α β; rw [abLoopF_nil, abLoop_nil]
  | cons i rest ih =>
    intro acc α β
    cases m with
    | true =>
      rw [abLoopF_cons_max, hch, abLoop_cons_max]
      dsimp only
      split
      · rfl
      · exact ih _ _ _
    | false =>
      rw [abLoopF_cons_min, hch, abLoop_cons_min]
      dsimp only
      split
      · rfl
      · exact ih _ _ _

/-- Fuel `8 - depth` (hence fuel 8 at any depth) always suffices. -/
theorem minimaxF_eq_minimax :
    ∀ (fuel : ℕ) (b : Board) (d : ℕ) (m : Bool) (α β : EInt),
      8 ≤ d + fuel → 1 ≤ fuel →
      minimaxF fuel b d m α β = some (minimax b d m α β) := by
  intro fuel
  induction fuel with
  | zero => intro b d m α β _ h1; omega
  | succ fuel ih =>
    intro b d m α β h8 _
    rw [minimaxF]
    by_cases hO : (checkWinner b Player.O).isSome
    · rw [if_pos hO, minimax_win_O b d m α β hO]
    rw [if_neg hO]
    by_cases hX : (checkWinner b Player.X).isSome
    · rw [if_pos hX, minimax_win_X b d m α β hO hX]
    rw [if_neg hX]
    by_cases hful : (getEmptyCells b).length = 0
    · rw [if_pos hful, minimax_full b d m α β hO hX hful]
    rw [if_neg hful]
    by_cases h6 : 6 < d
    · rw [if_pos h6, minimax_cutoff b d m α β hO hX hful h6]
    rw [if_neg h6]
    have hch : ∀ (b' : Board) (m' : Bool) (α' β' : EInt),
        minimaxF fuel b' (d + 1) m' α' β' = some (minimax b' (d + 1) m' α' β') :=
      fun b' m' α' β' => ih b' (d + 1) m' α' β' (by omega) (by omega)
    cases m with
    | true =>
      rw [if_pos rfl, minimax_loop_max b d α β hO hX hful h6]
      exact abLoopF_eq_abLoop fuel b d (Nat.le_of_not_lt h6) hch true _ _ _ _
    | false =>
      rw [if_neg (by simp), minimax_loop_min b d α β hO hX hful h6]
      exact abLoopF_eq_abLoop fuel b d (Nat.le_of_not_lt h6) hch false _ _ _ _

/-- **C8**: the minimax search terminates on every board, depth, side
to move and window: a fixed fuel bound of 8 — one unit per ply, as the
depth cutoff at `depth > 6` caps the recursion depth — is never
exhausted, and the fuelled search computes exactly the total function
`minimax`. -/
theorem minimax_terminates (b : Board) (d : ℕ) (m : Bool) (α β : EInt) :
    minimaxF 8 b d m α β = some (minimax b d m α β) :=
  minimaxF_eq_minimax 8 b d m α β (by omega) (by omega)

/-! ### The pruned search computes the plain minimax value -/

theorem minimaxPlain_win_O (b : Board) (d : ℕ) (m : Bool)
    (hw : (checkWinner b Player.O).isSome) :
    minimaxPlain b d m = jint (10 - (d : ℤ)) := by
  rw [minimaxPlain, if_pos hw]

theorem minimaxPlain_win_X (b : Board) (d : ℕ) (m : Bool)
    (hnO : ¬(checkWinner b Player.O).isSome) (hw : (checkWinner b Player.X).isSome) :
    minimaxPlain b d m = jint ((d : ℤ) - 10) := by
  rw [minimaxPlain, if_neg hnO, if_pos hw]

theorem minimaxPlain_full (b : Board) (d : ℕ) (m : Bool)
    (hnO : ¬(checkWinner b Player.O).isSome) (hnX : ¬(checkWinner b Player.X).isSome)
    (hful : (getEmptyCells b).length = 0) :
    minimaxPlain b d m = jint 0 := by
  rw [minimaxPlain, if_neg hnO, if_neg hnX, if_pos hful]

theorem minimaxPlain_cutoff (b : Board) (d : ℕ) (m : Bool)
    (hnO : ¬(checkWinner b Player.O).isSome) (hnX : ¬(checkWinner b Player.X).isSome)
    (hful : ¬(getEmptyCells b).length = 0) (h6 : 6 < d) :
    minimaxPlain b d m = jint 0 := by
  rw [minimaxPlain, if_neg hnO, if_neg hnX, if_neg hful, dif_pos h6]

theorem minimaxPlain_loop_max (b : Board) (d : ℕ)
    (hnO : ¬(checkWinner b Player.O).isSome) (hnX : ¬(checkWinner b Player.X).isSome)
    (hful : ¬(getEmptyCells b).length = 0) (h6 : ¬6 < d) :
    minimaxPlain b d true =
      plainLoop b d true (getEmptyCells b) ⊥ (Nat.le_of_not_lt h6) := by
  rw [minimaxPlain, if_neg hnO, if_neg hnX, if_neg hful, dif_neg h6, if_pos rfl]

theorem minimaxPlain_loop_min (b : Board) (d : ℕ)
    (hnO : ¬(checkWinner b Player.O).isSome) (hnX : ¬(checkWinner b Player.X).isSome)
    (hful : ¬(getEmptyCells b).length = 0) (h6 : ¬6 < d) :
    minimaxPlain b d false =
      plainLoop b d false (getEmptyCells b) ⊤ (Nat.le_of_not_lt h6) := by
  rw [minimaxPlain, if_neg hnO, if_neg hnX, if_neg hful, dif_neg h6, if_neg (by simp)]

theorem plainLoop_nil (b : Board) (d : ℕ) (m : Bool) (acc : EInt) (hd : d ≤ 6) :
    plainLoop b d m [] acc hd = acc := by
  rw [plainLoop]

theorem plainLoop_cons_max (b : Board) (d : ℕ) (i : ℕ) (rest : List ℕ)
    (acc : EInt) (hd : d ≤ 6) :
    plainLoop b d true (i :: rest) acc hd =
      plainLoop b d true rest
        (max acc (minimaxPlain (b.set i (some Player.O)) (d + 1) false)) hd := by
  rw [plainLoop, if_pos rfl]

theorem plainLoop_cons_min (b : Board) (d : ℕ) (i : ℕ) (rest : List ℕ)
    (acc : EInt) (hd : d ≤ 6) :
    plainLoop b d false (i :: rest) acc hd =
      plainLoop b d false rest
        (min acc (minimaxPlain (b.set i (some Player.X)) (d + 1) true)) hd := by
  rw [plainLoop]
  simp only [Bool.false_eq_true, if_false]

/-- The accumulator only grows through the maximizing plain loop. -/
theorem le_plainLoop_max (b : Board) (d : ℕ) (hd : d ≤ 6) :
    ∀ (cells : List ℕ) (acc : EInt), acc ≤ plainLoop b d true cells acc hd := by
  intro cells
  induction cells with
  | nil => intro acc; rw [plainLoop_nil]
  | cons i rest ih =>
    intro acc
    rw [plainLoop_cons_max]
    exact le_trans (le_max_left _ _) (ih _)

/-- The accumulator only shrinks through the minimizing plain loop. -/
theorem plainLoop_min_le (b : Board) (d : ℕ) (hd : d ≤ 6) :
    ∀ (cells : List ℕ) (acc : EInt), plainLoop b d false cells acc hd ≤ acc := by
  intro cells
  induction cells with
  | nil => intro acc; rw [plainLoop_nil]
  | cons i rest ih =>
    intro acc
    rw [plainLoop_cons_min]
    exact le_trans (ih _) (min_le_left _ _)

/-- A `max` joined into the accumulator commutes out of the maximizing
plain loop. -/
theorem plainLoop_max_join (b : Board) (d : ℕ) (hd : d ≤ 6) :
    ∀ (cells : List ℕ) (x y : EInt),
      plainLoop b d true cells (max x y) hd = max (plainLoop b d true cells x hd) y := by
  intro cells
  induction cells with
  | nil => intro x y; rw [plainLoop_nil, plainLoop_nil]
  | cons i rest ih =>
    intro x y
    rw [plainLoop_cons_max, plainLoop_cons_max, sup_right_comm, ih]

/-- A `min` joined into the accumulator commutes out of the minimizing
plain loop. -/
theorem plainLoop_min_join (b : Board) (d : ℕ) (hd : d ≤ 6) :
    ∀ (cells : List ℕ) (x y : EInt),
      plainLoop b d false cells (min x y) hd = min (plainLoop b d false cells x hd) y := by
  intro cells
  induction cells with
  | nil => intro x y; rw [plainLoop_nil, plainLoop_nil]
  | cons i rest ih =>
    intro x y
    rw [plainLoop_cons_min, plainLoop_cons_min, inf_right_comm, ih]

theorem jint_max (a c : ℤ) : max (jint a) (jint c) = jint (max a c) := by
  rcases le_total a c with h | h
  · rw [max_eq_right (jint_le_jint.mpr h), max_eq_right h]
  · rw [max_eq_left (jint_le_jint.mpr h), max_eq_left h]

theorem jint_min (a c : ℤ) : min (jint a) (jint c) = jint (min a c) := by
  rcases le_total a c with h | h
  · rw [min_eq_left (jint_le_jint.mpr h), min_eq_left h]
  · rw [min_eq_right (jint_le_jint.mpr h), min_eq_right h]

/-- The maximizing plain loop started at a finite value stays finite
when every child value is finite. -/
theorem plainLoop_max_fin (b : Board) (d : ℕ) (hd : d ≤ 6) :
    ∀ (cells : List ℕ) (z : ℤ),
      (∀ i ∈ cells, ∃ w, minimaxPlain (b.set i (some Player.O)) (d + 1) false = jint w) →
      ∃ w, plainLoop b d true cells (jint z) hd = jint w := by
  intro cells
  induction cells with
  | nil => intro z _; exact ⟨z, plainLoop_nil b d true (jint z) hd⟩
  | cons i rest ih =>
    intro z hch
    obtain ⟨w, hw⟩ := hch i (List.mem_cons_self i rest)
    rw [plainLoop_cons_max, hw, jint_max]
    exact ih (max z w) (fun j hj => hch j (List.mem_cons_of_mem i hj))

/-- Dual of `plainLoop_max_fin` for the minimizing loop. -/
theorem plainLoop_min_fin (b : Board) (d : ℕ) (hd : d ≤ 6) :
    ∀ (cells : List ℕ) (z : ℤ),
      (∀ i ∈ cells, ∃ w, minimaxPlain (b.set i (some Player.X)) (d + 1) true = jint w) →
      ∃ w, plainLoop b d false cells (jint z) hd = jint w := by
  intro cells
  induction cells with
  | nil => intro z _; exact ⟨z, plainLoop_nil b d false (jint z) hd⟩
  | cons i rest ih =>
    intro z hch
    obtain ⟨w, hw⟩ := hch i (List.mem_cons_self i rest)
    rw [plainLoop_cons_min, hw, jint_min]
    exact ih (min z w) (fun j hj => hch j (List.mem_cons_of_mem i hj))

/-- Every plain minimax value is finite (never `±Infinity`). -/
theorem minimaxPlain_fin :
    ∀ (k : ℕ) (b : Board) (d : ℕ) (m : Bool), 8 ≤ d + k →
      ∃ z, minimaxPlain b d m = jint z := by
  intro k
  induction k with
  | zero =>
    intro b d m h8
    by_cases hO : (checkWinner b Player.O).isSome
    · exact ⟨_, minimaxPlain_win_O b d m hO⟩
    by_cases hX : (checkWinner b Player.X).isSome
    · exact ⟨_, minimaxPlain_win_X b d m hO hX⟩
    by_cases hful : (getEmptyCells b).length = 0
    · exact ⟨_, minimaxPlain_full b d m hO hX hful⟩
    exact ⟨_, minimaxPlain_cutoff b d m hO hX hful (by omega)⟩
  | succ k ih =>
    intro b d m h8
    by_cases hO : (checkWinner b Player.O).isSome
    · exact ⟨_, minimaxPlain_win_O b d m hO⟩
    by_cases hX : (checkWinner b Player.X).isSome
    · exact ⟨_, minimaxPlain_win_X b d m hO hX⟩
    by_cases hful : (getEmptyCells b).length = 0
    · exact ⟨_, minimaxPlain_full b d m hO hX hful⟩
    by_cases h6 : 6 < d
    · exact ⟨_, minimaxPlain_cutoff b d m hO hX hful h6⟩
    have hch_max : ∀ i, ∃ w, minimaxPlain (b.set i (some Player.O)) (d + 1) false = jint w :=
      fun i => ih _ (d + 1) false (by omega)
    have hch_min : ∀ i, ∃ w, minimaxPlain (b.set i (some Player.X)) (d + 1) true = jint w :=
      fun i => ih _ (d + 1) true (by omega)
    cases m with
    | true =>
      rw [minimaxPlain_loop_max b d hO hX hful h6]
      cases hc : getEmptyCells b with
      | nil => exact absurd (by rw [hc]; rfl) hful
      | cons i rest =>
        rw [plainLoop_cons_max, max_eq_right bot_le]
        obtain ⟨w, hw⟩ := hch_max i
        rw [hw]
        exact plainLoop_max_fin b d _ rest w (fun j _ => hch_max j)
    | false =>
      rw [minimaxPlain_loop_min b d hO hX hful h6]
      cases hc : getEmptyCells b with
      | nil => exact absurd (by rw [hc]; rfl) hful
      | cons i rest =>
        rw [plainLoop_cons_min, min_eq_right le_top]
        obtain ⟨w, hw⟩ := hch_min i
        rw [hw]
        exact plainLoop_min_fin b d _ rest w (fun j _ => hch_min j)

/-- Fail-soft alpha-beta specification: how a pruned result `r` relates
to the true value `v` for a window `(α, β)`: exact inside the window, a
sound bound when failing low or high. -/
def FailSoft (r v α β : EInt) : Prop :=
  (v ≤ α → v ≤ r ∧ r ≤ α) ∧ (α < v → v < β → r = v) ∧ (β ≤ v → β ≤ r ∧ r ≤ v)

theorem failSoft_of_eq {r v α β : EInt} (h : r = v) : FailSoft r v α β := by
  subst h
  exact ⟨fun ha => ⟨le_refl _, ha⟩, fun _ _ => rfl, fun hb => ⟨hb, le_refl _⟩⟩

/-- Monotonicity of the maximizing plain loop in its accumulator. -/
theorem plainLoop_max_mono (b : Board) (d : ℕ) (hd : d ≤ 6) (cells : List ℕ)
    {x y : EInt} (hxy : x ≤ y) :
    plainLoop b d true cells x hd ≤ plainLoop b d true cells y hd := by
  have h := plainLoop_max_join b d hd cells x y
  rw [max_eq_right hxy] at h
  rw [h]
  exact le_max_left _ _

/-- Monotonicity of the minimizing plain loop in its accumulator. -/
theorem plainLoop_min_mono (b : Board) (d : ℕ) (hd : d ≤ 6) (cells : List ℕ)
    {x y : EInt} (hxy : x ≤ y) :
    plainLoop b d false cells x hd ≤ plainLoop b d false cells y hd := by
  have h := plainLoop_min_join b d hd cells y x
  rw [min_eq_right hxy] at h
  rw [h]
  exact min_le_left _ _

/-- Fail-soft correctness of the maximizing pruning loop, given
fail-soft correctness of every child evaluation. -/
theorem abLoop_failSoft_max (b : Board) (d : ℕ) (hd : d ≤ 6) (β : EInt)
    (hch : ∀ (i : ℕ) (α' : EInt), α' < β →
      FailSoft (minimax (b.set i (some Player.O)) (d + 1) false α' β)
        (minimaxPlain (b.set i (some Player.O)) (d + 1) false) α' β) :
    ∀ (cells : List ℕ) (acc α : EInt), α < β → acc ≤ α →
      FailSoft (abLoop b d true cells acc α β hd) (plainLoop b d true cells acc hd) α β := by
  intro cells
  induction cells with
  | nil =>
    intro acc α hαβ hacc
    rw [abLoop_nil, plainLoop_nil]
    exact failSoft_of_eq rfl
  | cons i rest ih =>
    intro acc α hαβ hacc
    rw [abLoop_cons_max, plainLoop_cons_max]
    have hc := hch i α hαβ
    rcases le_or_lt (minimaxPlain (b.set i (some Player.O)) (d + 1) false) α with hPα | hαP
    · -- fail-low child: the window is unchanged and no break happens
      obtain ⟨hPE, hEα⟩ := hc.1 hPα
      rw [max_eq_left hEα, if_neg (not_le.mpr hαβ)]
      have hIH := ih (max acc (minimax (b.set i (some Player.O)) (d + 1) false α β)) α hαβ
        (max_le hacc hEα)
      have hvv' : plainLoop b d true rest
            (max acc (minimaxPlain (b.set i (some Player.O)) (d + 1) false)) hd ≤
          plainLoop b d true rest
            (max acc (minimax (b.set i (some Player.O)) (d + 1) false α β)) hd :=
        plainLoop_max_mono b d hd rest (sup_le_sup_left hPE acc)
      have hv'bound : plainLoop b d true rest
            (max acc (minimax (b.set i (some Player.O)) (d + 1) false α β)) hd ≤
          max (plainLoop b d true rest
            (max acc (minimaxPlain (b.set i (some Player.O)) (d + 1) false)) hd) α := by
        have h1 : max acc (minimax (b.set i (some Player.O)) (d + 1) false α β) ≤
            max (max acc (minimaxPlain (b.set i (some Player.O)) (d + 1) false)) α :=
          max_le (le_trans (le_max_left _ _) (le_max_left _ _))
            (le_trans hEα (le_max_right _ _))
        have h2 := plainLoop_max_mono b d hd rest h1
        rwa [plainLoop_max_join b d hd rest
          (max acc (minimaxPlain (b.set i (some Player.O)) (d + 1) false)) α] at h2
      refine ⟨?_, ?_, ?_⟩
      · intro hvα
        obtain ⟨h1', h2'⟩ := hIH.1 (le_trans hv'bound (max_le hvα (le_refl α)))
        exact ⟨le_trans hvv' h1', h2'⟩
      · intro hαv hvβ
        have hv'v : plainLoop b d true rest
              (max acc (minimax (b.set i (some Player.O)) (d + 1) false α β)) hd =
            plainLoop b d true rest
              (max acc (minimaxPlain (b.set i (some Player.O)) (d + 1) false)) hd :=
          le_antisymm (le_trans hv'bound (max_le (le_refl _) (le_of_lt hαv))) hvv'
        have := hIH.2.1 (by rw [hv'v]; exact hαv) (by rw [hv'v]; exact hvβ)
        rw [this, hv'v]
      · intro hβv
        have hv'v : plainLoop b d true rest
              (max acc (minimax (b.set i (some Player.O)) (d + 1) false α β)) hd =
            plainLoop b d true rest
              (max acc (minimaxPlain (b.set i (some Player.O)) (d + 1) false)) hd :=
          le_antisymm
            (le_trans hv'bound
              (max_le (le_refl _) (le_of_lt (lt_of_lt_of_le hαβ hβv)))) hvv'
        have h' := hIH.2.2 (by rw [hv'v]; exact hβv)
        exact ⟨h'.1, le_trans h'.2 (le_of_eq hv'v)⟩
    · rcases lt_or_le (minimaxPlain (b.set i (some Player.O)) (d + 1) false) β with hPβ | hβP
      · -- exact child: the window tightens to `(P, β)`
        have hEP := hc.2.1 hαP hPβ
        rw [hEP, max_eq_right (le_of_lt hαP), if_neg (not_le.mpr hPβ)]
        have hIH := ih (max acc (minimaxPlain (b.set i (some Player.O)) (d + 1) false))
          (minimaxPlain (b.set i (some Player.O)) (d + 1) false) hPβ
          (max_le (le_trans hacc (le_of_lt hαP)) (le_refl _))
        have hPv : minimaxPlain (b.set i (some Player.O)) (d + 1) false ≤
            plainLoop b d true rest
              (max acc (minimaxPlain (b.set i (some Player.O)) (d + 1) false)) hd :=
          le_trans (le_max_right _ _) (le_plainLoop_max b d hd rest _)
        refine ⟨?_, ?_, ?_⟩
        · intro hvα
          exact absurd hvα (not_le.mpr (lt_of_lt_of_le hαP hPv))
        · intro hαv hvβ
          rcases le_or_lt (plainLoop b d true rest
              (max acc (minimaxPlain (b.set i (some Player.O)) (d + 1) false)) hd)
              (minimaxPlain (b.set i (some Player.O)) (d + 1) false) with hvP | hPv'
          · obtain ⟨h1', h2'⟩ := hIH.1 hvP
            exact le_antisymm (le_trans h2' hPv) h1'
          · exact hIH.2.1 hPv' hvβ
        · intro hβv
          exact hIH.2.2 hβv
      · -- fail-high child: the loop breaks at once
        obtain ⟨hβE, hEP⟩ := hc.2.2 hβP
        rw [if_pos (le_trans hβE (le_max_right α _))]
        have hPv : minimaxPlain (b.set i (some Player.O)) (d + 1) false ≤
            plainLoop b d true rest
              (max acc (minimaxPlain (b.set i (some Player.O)) (d + 1) false)) hd :=
          le_trans (le_max_right _ _) (le_plainLoop_max b d hd rest _)
        refine ⟨?_, ?_, ?_⟩
        · intro hvα
          exact absurd hvα (not_le.mpr (lt_of_lt_of_le hαβ (le_trans hβP hPv)))
        · intro hαv hvβ
          exact absurd hvβ (not_lt.mpr (le_trans hβP hPv))
        · intro hβv
          refine ⟨le_trans hβE (le_max_right acc _), ?_⟩
          exact max_le
            (le_trans hacc (le_of_lt (lt_of_lt_of_le hαβ (le_trans hβP hPv))))
            (le_trans hEP hPv)

/-- Fail-soft correctness of the minimizing pruning loop, given
fail-soft correctness of every child evaluation. -/
theorem abLoop_failSoft_min (b : Board) (d : ℕ) (hd : d ≤ 6) (α : EInt)
    (hch : ∀ (i : ℕ) (β' : EInt), α < β' →
      FailSoft (minimax (b.set i (some Player.X)) (d + 1) true α β')
        (minimaxPlain (b.set i (some Player.X)) (d + 1) true) α β') :
    ∀ (cells : List ℕ) (acc β : EInt), α < β → β ≤ acc →
      FailSoft (abLoop b d false cells acc α β hd) (plainLoop b d false cells acc hd) α β := by
  intro cells
  induction cells with
  | nil =>
    intro acc β hαβ hacc
    rw [abLoop_nil, plainLoop_nil]
    exact failSoft_of_eq rfl
  | cons i rest ih =>
    intro acc β hαβ hacc
    rw [abLoop_cons_min, plainLoop_cons_min]
    have hc := hch i β hαβ
    rcases le_or_lt β (minimaxPlain (b.set i (some Player.X)) (d + 1) true) with hβP | hPβ
    · -- fail-high child: the window is unchanged and no break happens
      obtain ⟨hβE, hEP⟩ := hc.2.2 hβP
      rw [min_eq_left hβE, if_neg (not_le.mpr hαβ)]
      have hIH := ih (min acc (minimax (b.set i (some Player.X)) (d + 1) true α β)) β hαβ
        (le_min hacc hβE)
      have hv'v : plainLoop b d false rest
            (min acc (minimax (b.set i (some Player.X)) (d + 1) true α β)) hd ≤
          plainLoop b d false rest
            (min acc (minimaxPlain (b.set i (some Player.X)) (d + 1) true)) hd :=
        plainLoop_min_mono b d hd rest (inf_le_inf_left acc hEP)
      have hv'bound : min (plainLoop b d false rest
            (min acc (minimaxPlain (b.set i (some Player.X)) (d + 1) true)) hd) β ≤
          plainLoop b d false rest
            (min acc (minimax (b.set i (some Player.X)) (d + 1) true α β)) hd := by
        have h1 : min (min acc (minimaxPlain (b.set i (some Player.X)) (d + 1) true)) β ≤
            min acc (minimax (b.set i (some Player.X)) (d + 1) true α β) :=
          le_min (le_trans (min_le_left _ _) (min_le_left _ _))
            (le_trans (min_le_right _ _) hβE)
        have h2 := plainLoop_min_mono b d hd rest h1
        rwa [plainLoop_min_join b d hd rest
          (min acc (minimaxPlain (b.set i (some Player.X)) (d + 1) true)) β] at h2
      refine ⟨?_, ?_, ?_⟩
      · intro hvα
        have hv'eq : plainLoop b d false rest
              (min acc (minimax (b.set i (some Player.X)) (d + 1) true α β)) hd =
            plainLoop b d false rest
              (min acc (minimaxPlain (b.set i (some Player.X)) (d + 1) true)) hd :=
          le_antisymm hv'v
            (by
              have := hv'bound
              rwa [min_eq_left (le_trans hvα (le_of_lt hαβ))] at this)
        obtain ⟨h1', h2'⟩ := hIH.1 (by rw [hv'eq]; exact hvα)
        exact ⟨by rw [← hv'eq]; exact h1', h2'⟩
      · intro hαv hvβ
        have hv'eq : plainLoop b d false rest
              (min acc (minimax (b.set i (some Player.X)) (d + 1) true α β)) hd =
            plainLoop b d false rest
              (min acc (minimaxPlain (b.set i (some Player.X)) (d + 1) true)) hd :=
          le_antisymm hv'v
            (by
              have := hv'bound
              rwa [min_eq_left (le_of_lt hvβ)] at this)
        have := hIH.2.1 (by rw [hv'eq]; exact hαv) (by rw [hv'eq]; exact hvβ)
        rw [this, hv'eq]
      · intro hβv
        have hβv' : β ≤ plainLoop b d false rest
            (min acc (minimax (b.set i (some Player.X)) (d + 1) true α β)) hd := by
          have := hv'bound
          rwa [min_eq_right hβv] at this
        obtain ⟨h1', h2'⟩ := hIH.2.2 hβv'
        exact ⟨h1', le_trans h2' hv'v⟩
    · rcases lt_or_le α (minimaxPlain (b.set i (some Player.X)) (d + 1) true) with hαP | hPα
      · -- exact child: the window tightens to `(α, P)`
        have hEP := hc.2.1 hαP hPβ
        rw [hEP, min_eq_right (le_of_lt hPβ), if_neg (not_le.mpr hαP)]
        have hIH := ih (min acc (minimaxPlain (b.set i (some Player.X)) (d + 1) true))
          (minimaxPlain (b.set i (some Player.X)) (d + 1) true) hαP
          (le_min (le_trans (le_of_lt hPβ) hacc) (le_refl _))
        have hvP : plainLoop b d false rest
              (min acc (minimaxPlain (b.set i (some Player.X)) (d + 1) true)) hd ≤
            minimaxPlain (b.set i (some Player.X)) (d + 1) true :=
          le_trans (plainLoop_min_le b d hd rest _) (min_le_right _ _)
        refine ⟨?_, ?_, ?_⟩
        · intro hvα
          exact hIH.1 hvα
        · intro hαv hvβ
          rcases le_or_lt (minimaxPlain (b.set i (some Player.X)) (d + 1) true)
              (plainLoop b d false rest
                (min acc (minimaxPlain (b.set i (some Player.X)) (d + 1) true)) hd)
              with hPv' | hv'P
          · obtain ⟨h1', h2'⟩ := hIH.2.2 hPv'
            exact le_antisymm h2' (le_trans hvP h1')
          · exact hIH.2.1 hαv hv'P
        · intro hβv
          exact absurd hβv (not_le.mpr (lt_of_le_of_lt hvP hPβ))
      · -- fail-low child: the loop breaks at once
        obtain ⟨hPE, hEα⟩ := hc.1 hPα
        rw [min_eq_right (le_trans hEα (le_of_lt hαβ)), if_pos hEα]
        have hvP : plainLoop b d false rest
              (min acc (minimaxPlain (b.set i (some Player.X)) (d + 1) true)) hd ≤
            minimaxPlain (b.set i (some Player.X)) (d + 1) true :=
          le_trans (plainLoop_min_le b d hd rest _) (min_le_right _ _)
        refine ⟨?_, ?_, ?_⟩
        · intro hvα
          refine ⟨?_, le_trans (min_le_right acc _) hEα⟩
          exact le_min
            (le_trans (plainLoop_min_le b d hd rest _) (min_le_left _ _))
            (le_trans hvP hPE)
        · intro hαv hvβ
          exact absurd hαv (not_lt.mpr (le_trans hvP hPα))
        · intro hβv
          exact absurd hβv
            (not_le.mpr (lt_of_le_of_lt (le_trans hvP hPα) hαβ))

/-- Fail-soft correctness of the pruned search against the plain search,
for every window. -/
theorem minimax_failSoft :
    ∀ (k : ℕ) (b : Board) (d : ℕ) (m : Bool) (α β : EInt),
      8 ≤ d + k → α < β →
      FailSoft (minimax b d m α β) (minimaxPlain b d m) α β := by
  intro k
  induction k with
  | zero =>
    intro b d m α β h8 hαβ
    by_cases hO : (checkWinner b Player.O).isSome
    · exact failSoft_of_eq (by rw [minimax_win_O b d m α β hO, minimaxPlain_win_O b d m hO])
    by_cases hX : (checkWinner b Player.X).isSome
    · exact failSoft_of_eq
        (by rw [minimax_win_X b d m α β hO hX, minimaxPlain_win_X b d m hO hX])
    by_cases hful : (getEmptyCells b).length = 0
    · exact failSoft_of_eq
        (by rw [minimax_full b d m α β hO hX hful, minimaxPlain_full b d m hO hX hful])
    exact failSoft_of_eq
      (by rw [minimax_cutoff b d m α β hO hX hful (by omega),
        minimaxPlain_cutoff b d m hO hX hful (by omega)])
  | succ k ih =>
    intro b d m α β h8 hαβ
    by_cases hO : (checkWinner b Player.O).isSome
    · exact failSoft_of_eq (by rw [minimax_win_O b d m α β hO, minimaxPlain_win_O b d m hO])
    by_cases hX : (checkWinner b Player.X).isSome
    · exact failSoft_of_eq
        (by rw [minimax_win_X b d m α β hO hX, minimaxPlain_win_X b d m hO hX])
    by_cases hful : (getEmptyCells b).length = 0
    · exact failSoft_of_eq
        (by rw [minimax_full b d m α β hO hX hful, minimaxPlain_full b d m hO hX hful])
    by_cases h6 : 6 < d
    · exact failSoft_of_eq
        (by rw [minimax_cutoff b d m α β hO hX hful h6,
          minimaxPlain_cutoff b d m hO hX hful h6])
    cases m with
    | true =>
      rw [minimax_loop_max b d α β hO hX hful h6, minimaxPlain_loop_max b d hO hX hful h6]
      exact abLoop_failSoft_max b d (Nat.le_of_not_lt h6) β
        (fun i α' hα'β => ih (b.set i (some Player.O)) (d + 1) false α' β (by omega) hα'β)
        (getEmptyCells b) ⊥ α hαβ bot_le
    | false =>
      rw [minimax_loop_min b d α β hO hX hful h6, minimaxPlain_loop_min b d hO hX hful h6]
      exact abLoop_failSoft_min b d (Nat.le_of_not_lt h6) α
        (fun i β' hαβ' => ih (b.set i (some Player.X)) (d + 1) true α β' (by omega) hαβ')
        (getEmptyCells b) ⊤ β hαβ le_top

/-- **C7**: for every board, depth and side to move, the alpha-beta
search called with the full window (`alpha = -Infinity`,
`beta = +Infinity`) returns the same value as the plain depth-weighted
minimax without pruning over the same evaluation. -/
theorem minimax_fullwindow_eq_plain (b : Board) (d : ℕ) (m : Bool) :
    minimax b d m ⊥ ⊤ = minimaxPlain b d m := by
  obtain ⟨z, hz⟩ := minimaxPlain_fin 8 b d m (by omega)
  have h := minimax_failSoft 8 b d m ⊥ ⊤ (by omega) bot_lt_top
  exact h.2.1 (by rw [hz]; exact bot_lt_jint z) (by rw [hz]; exact jint_lt_top z)
